import Mathlib

/-!
Verification development for a DNA motif-analysis program.

The program's core (an IUPAC-aware overlapping motif matcher, a FASTA
loader and an analysis engine producing a raw/normalized count matrix)
is shallowly embedded here.  Python strings are modelled as `List Char`,
Python dicts that preserve insertion order as association lists,
raising `ValueError` as returning `Except` with a structured error that
carries the same data as the original message, and `numpy` float
matrices as matrices over `ℚ` (exact arithmetic in place of IEEE
doubles).
-/

set_option maxHeartbeats 1600000

/-- Source `_IUPAC_MASK` (main.py): IUPAC symbol to 4-bit mask over A,C,G,T. -/
def iupacMaskTable : List (Char × Nat) :=
  [('A', 1), ('C', 2), ('G', 4), ('T', 8), ('U', 8),
   ('R', 5), ('Y', 10), ('S', 6), ('W', 9), ('K', 12), ('M', 3),
   ('B', 14), ('D', 13), ('H', 11), ('V', 7), ('N', 15)]

/-- Dictionary lookup `_IUPAC_MASK[c]`, `none` playing the role of `KeyError`. -/
def maskLookup (c : Char) : Option Nat :=
  iupacMaskTable.lookup c

/-- The keys of the IUPAC mask dictionary. -/
def iupacKeys : List Char :=
  iupacMaskTable.map Prod.fst

/-- A character `c` such that `_IUPAC_MASK[c.upper()]` exists. -/
def isIupacChar (c : Char) : Bool :=
  (maskLookup c.toUpper).isSome

/-- Source `matches_iupac` (main.py lines 124-133): masks of the uppercased
characters intersect; a `KeyError` on either side yields `False`. -/
def matches_iupac (seqChar motifChar : Char) : Bool :=
  match maskLookup seqChar.toUpper, maskLookup motifChar.toUpper with
  | some a, some b => a &&& b != 0
  | _, _ => false

/-- Per-character effect of `s.upper().replace("U", "T")`. -/
def normUch (c : Char) : Char :=
  if c.toUpper = 'U' then 'T' else c.toUpper

/-- Source normalization `s.upper().replace("U", "T")` applied to a string. -/
def normU (s : List Char) : List Char :=
  s.map normUch

/-- Source `iupac_find_positions` (main.py lines 136-157): 0-based start
offsets at which the motif matches, scanning candidates left to right;
`range(L - mL + 1)` is empty when the motif is longer than the sequence. -/
def iupac_find_positions (sequence motif : List Char) : List Nat :=
  let seq := normU sequence
  let mot := normU motif
  let L := seq.length
  let mL := mot.length
  if L < mL then []
  else
    (List.range (L - mL + 1)).filter fun i =>
      (List.range mL).all fun j =>
        matches_iupac (seq.getD (i + j) 'X') (mot.getD j 'X')

/-- Error raised by the counting matcher: `ValueError("Nieznany symbol IUPAC: c")`. -/
inductive MatcherError where
  | unknownSymbol : Char → MatcherError
deriving DecidableEq, Repr

/-- The mask list comprehension `[_IUPAC_MASK[ch] for ch in s]`: the first
character without a mask raises, mirrored by `Except Char`. -/
def masksOf : List Char → Except Char (List Nat)
  | [] => .ok []
  | c :: rest =>
    match maskLookup c with
    | none => .error c
    | some m =>
      match masksOf rest with
      | .error e => .error e
      | .ok ms => .ok (m :: ms)

/-- Source `iupac_count` (main.py lines 159-193): overlapping bitmask count;
empty sequence or motif short-circuits to 0, an unknown symbol raises. -/
def iupac_count (sequence motif : List Char) : Except MatcherError Nat :=
  if sequence = [] ∨ motif = [] then .ok 0
  else
    let seq := normU sequence
    let mot := normU motif
    match masksOf seq with
    | .error c => .error (.unknownSymbol c)
    | .ok seq_masks =>
      match masksOf mot with
      | .error c => .error (.unknownSymbol c)
      | .ok mot_masks =>
        let m := mot_masks.length
        let n := seq_masks.length
        if n < m then .ok 0
        else
          .ok ((List.range (n - m + 1)).countP fun i =>
            (List.range m).all fun j =>
              (seq_masks.getD (i + j) 0) &&& (mot_masks.getD j 0) != 0)

/-- Errors raised by `load_fasta`, mirroring the `ValueError` messages
"Pusty naglowek w linii n", "Duplikat ID: id", "Plik nie zaczyna sie od
naglowka FASTA", "Niepoprawne znaki bad w linii n", "Nie znaleziono
sekwencji"; each constructor carries the data of the message. -/
inductive FastaError where
  | emptyHeader : Nat → FastaError
  | duplicateId : List Char → FastaError
  | missingHeader : FastaError
  | invalidChars : List Char → Nat → FastaError
  | noSequences : FastaError
deriving DecidableEq, Repr

/-- Python `str.strip()`: drop whitespace from both ends. -/
def pyStrip (l : List Char) : List Char :=
  ((l.dropWhile Char.isWhitespace).reverse.dropWhile Char.isWhitespace).reverse

/-- Splitting file text into physical lines, as iterating the file and
stripping does (the model splits on the newline character). -/
def splitLines : List Char → List (List Char)
  | [] => [[]]
  | c :: rest =>
    if c = '\n' then [] :: splitLines rest
    else
      match splitLines rest with
      | [] => [[c]]
      | l :: ls => (c :: l) :: ls

/-- Python `line.startswith(">")`. -/
def isHeaderLine : List Char → Bool
  | '>' :: _ => true
  | _ => false

/-- Source `allowed = set("ACGTRYSWKMBDHVN")` (main.py line 54). -/
def allowedChars : List Char :=
  ['A', 'C', 'G', 'T', 'R', 'Y', 'S', 'W', 'K', 'M', 'B', 'D', 'H', 'V', 'N']

/-- Sequence-line normalization of `load_fasta` (main.py lines 74-87),
applied in source order: uppercase, then `U` to `T`, then remove `-` and
`.`, then `?` to `N`, then remove space and tab, then remove digits. -/
def cleanSeqLine (line : List Char) : List Char :=
  let s1 := line.map Char.toUpper
  let s2 := s1.map fun c => if c = 'U' then 'T' else c
  let s3 := s2.filter fun c => c != '-' && c != '.'
  let s4 := s3.map fun c => if c = '?' then 'N' else c
  let s5 := s4.filter fun c => c != ' ' && c != '\t'
  s5.filter fun c => !c.isDigit

/-- Insert a character into a sorted list of characters. -/
def insertSorted (c : Char) : List Char → List Char
  | [] => [c]
  | d :: ds => if c ≤ d then c :: d :: ds else d :: insertSorted c ds

/-- Insertion sort on characters (models Python `sorted`). -/
def sortChars (l : List Char) : List Char :=
  l.foldr insertSorted []

/-- Remove duplicate characters (models collecting into a Python `set`). -/
def dedupChars : List Char → List Char
  | [] => []
  | c :: rest => if c ∈ rest then dedupChars rest else c :: dedupChars rest

/-- Source `sorted({c for c in seq_line if c not in allowed})`
(main.py lines 89-91). -/
def badCharsOf (l : List Char) : List Char :=
  sortChars (dedupChars (l.filter fun c => !allowedChars.contains c))

/-- Python `sequences[current_id] += seq_line` on an insertion-ordered map. -/
def appendTo (acc : List (List Char × List Char)) (id s : List Char) :
    List (List Char × List Char) :=
  acc.map fun p => if p.1 = id then (p.1, p.2 ++ s) else p

/-- The line loop of `load_fasta` (main.py lines 57-98): `lineNum` is the
1-based number of the next line, `cur` the currently open header,
`acc` the insertion-ordered id-to-sequence map built so far. -/
def load_fasta_lines (lineNum : Nat) (cur : Option (List Char))
    (acc : List (List Char × List Char)) :
    List (List Char) → Except FastaError (List (List Char × List Char))
  | [] => if acc = [] then .error .noSequences else .ok acc
  | line :: rest =>
    let l := pyStrip line
    if l = [] then load_fasta_lines (lineNum + 1) cur acc rest
    else if isHeaderLine l then
      let id := pyStrip (l.drop 1)
      if id = [] then .error (.emptyHeader lineNum)
      else if acc.any fun p => p.1 == id then .error (.duplicateId id)
      else load_fasta_lines (lineNum + 1) (some id) (acc ++ [(id, [])]) rest
    else
      match cur with
      | none => .error .missingHeader
      | some id =>
        let cleaned := cleanSeqLine l
        let bad := badCharsOf cleaned
        if bad = [] then load_fasta_lines (lineNum + 1) (some id) (appendTo acc id cleaned) rest
        else .error (.invalidChars bad lineNum)

/-- Source `load_fasta` (main.py lines 38-98) on the text of the file. -/
def load_fasta (text : List Char) : Except FastaError (List (List Char × List Char)) :=
  load_fasta_lines 1 none [] (splitLines text)

/-- Errors raised by the analysis engine; `matcherFailure` is the matcher
`ValueError` propagating unchanged through `compute_analysis`. -/
inductive EngineError where
  | noSequences : EngineError
  | noMotifs : EngineError
  | unknownMode : List Char → List (List Char) → EngineError
  | matcherFailure : MatcherError → EngineError
deriving DecidableEq, Repr

/-- Source dataclass `AnalysisResult` (analysis_engine.py lines 10-20); the
wall-clock `created_at` stamp is outside the embedding and carried by no
claim. -/
structure AnalysisResult where
  seq_ids : List (List Char)
  motifs : List (List Char)
  raw_counts : List (List Nat)
  seq_lengths : List Nat
  fasta_path : Option (List Char)
  iupac_enabled : Bool := true
  overlapping : Bool := true
deriving DecidableEq, Repr

/-- Python `str.lower()` applied characterwise. -/
def pyLower (s : List Char) : List Char :=
  s.map Char.toLower

/-- Source `AnalysisResult.matrix` (analysis_engine.py lines 22-37):
`mode = (mode or "raw").lower()`; `raw` casts the counts to float,
`norm` divides each row by `max(length, 1)` and scales by 1000, any
other mode raises `ValueError("Nieznany tryb: m. Dozwolone: raw, norm")`
(the error carries the rejected mode and the two allowed modes). -/
def AnalysisResult.matrix (r : AnalysisResult) (mode : List Char) :
    Except EngineError (List (List ℚ)) :=
  let m := pyLower (if mode = [] then ['r', 'a', 'w'] else mode)
  if m = ['r', 'a', 'w'] then
    .ok (r.raw_counts.map fun row => row.map fun (c : Nat) => (c : ℚ))
  else if m = ['n', 'o', 'r', 'm'] then
    .ok ((r.raw_counts.zip r.seq_lengths).map fun p =>
      p.1.map fun (c : Nat) => (c : ℚ) / (if 0 < p.2 then (p.2 : ℚ) else 1) * 1000)
  else .error (.unknownMode m [['r', 'a', 'w'], ['n', 'o', 'r', 'm']])

/-- Left-to-right effectful map over `Except`: the Python `for` loop filling
a row or the matrix, where the first raised error propagates. -/
def mapExcept (f : α → Except ε β) : List α → Except ε (List β)
  | [] => .ok []
  | a :: rest =>
    match f a with
    | .error e => .error e
    | .ok b =>
      match mapExcept f rest with
      | .error e => .error e
      | .ok bs => .ok (b :: bs)

/-- Source `compute_analysis` (analysis_engine.py lines 40-80): rejects an
empty sequence map or motif list, then fills `raw[i][j]` with
`iupac_count_fn(seq_i, motif_j)` in row-major order and records the
sequence lengths. -/
def compute_analysis (countFn : List Char → List Char → Except MatcherError Nat)
    (sequences : List (List Char × List Char)) (motifs : List (List Char))
    (fasta_path : Option (List Char)) : Except EngineError AnalysisResult :=
  if sequences = [] then .error .noSequences
  else if motifs = [] then .error .noMotifs
  else
    match mapExcept (fun p => mapExcept (fun mot => countFn p.2 mot) motifs) sequences with
    | .error e => .error (.matcherFailure e)
    | .ok raw =>
      .ok { seq_ids := sequences.map Prod.fst
            motifs := motifs
            raw_counts := raw
            seq_lengths := sequences.map fun p => p.2.length
            fasta_path := fasta_path }

/-- Spec-side table (spec section 3): the subset of the four bases denoted
by an uppercase IUPAC symbol, transcribed from the spec's words. -/
def specSymbolSetU : Char → List Char
  | 'A' => ['A'] | 'C' => ['C'] | 'G' => ['G'] | 'T' => ['T'] | 'U' => ['T']
  | 'R' => ['A', 'G'] | 'Y' => ['C', 'T'] | 'S' => ['G', 'C'] | 'W' => ['A', 'T']
  | 'K' => ['G', 'T'] | 'M' => ['A', 'C'] | 'B' => ['C', 'G', 'T']
  | 'D' => ['A', 'G', 'T'] | 'H' => ['A', 'C', 'T'] | 'V' => ['A', 'C', 'G']
  | 'N' => ['A', 'C', 'G', 'T']
  | _ => []

/-- Spec-side symbol-set of a character, case-insensitive. -/
def specSymbolSet (c : Char) : List Char :=
  specSymbolSetU c.toUpper

/-- Spec-side matching rule: the two symbol-sets intersect. -/
def specIntersects (a b : Char) : Bool :=
  (specSymbolSet a).any fun x => (specSymbolSet b).contains x

/-- Spec-side description of `find_positions` (spec section 4.1): every
candidate offset `i` between 0 and `len(sequence) - len(motif)` such that
each sequence symbol-set intersects the aligned motif symbol-set. -/
def specPositions (seq mot : List Char) : List Nat :=
  if seq.length < mot.length then []
  else
    (List.range (seq.length - mot.length + 1)).filter fun i =>
      (List.range mot.length).all fun j =>
        specIntersects (seq.getD (i + j) ' ') (mot.getD j ' ')

/-- Per-character form of the loader normalization pipeline, following the
spec's order (spec section 4.2): uppercase, `U` to `T`, drop `-` and `.`,
`?` to `N`, drop whitespace, drop digits. -/
def charNorm (c : Char) : Option Char :=
  let t := if c.toUpper = 'U' then 'T' else c.toUpper
  if t = '-' ∨ t = '.' then none
  else
    let q := if t = '?' then 'N' else t
    if q = ' ' ∨ q = '\t' then none
    else if q.isDigit then none
    else some q

/-! ### Helper lemmas -/

theorem mem_of_maskLookup (l : List (Char × Nat)) (c : Char) (m : Nat)
    (h : l.lookup c = some m) : c ∈ l.map Prod.fst := by
  induction l with
  | nil => simp [List.lookup] at h
  | cons p rest ih =>
    rw [List.lookup] at h
    by_cases hc : c == p.1
    · simp only [List.map_cons, List.mem_cons]
      exact Or.inl (eq_of_beq hc)
    · rw [Bool.of_not_eq_true hc] at h
      exact List.mem_cons_of_mem _ (ih h)

theorem isIupacChar_mem_keys (c : Char) (h : isIupacChar c = true) :
    c.toUpper ∈ iupacKeys := by
  unfold isIupacChar at h
  obtain ⟨m, hm⟩ := Option.isSome_iff_exists.mp h
  exact mem_of_maskLookup _ _ _ hm

theorem getD_map (xs : List α) (f : α → β) (k : Nat) (dx : α) (dy : β)
    (hk : k < xs.length) : (xs.map f).getD k dy = f (xs.getD k dx) := by
  induction xs generalizing k with
  | nil => exact absurd hk (by simp)
  | cons x tail ih =>
    match k with
    | 0 => rfl
    | m + 1 =>
      simp only [List.map_cons, List.getD_cons_succ]
      exact ih m (Nat.lt_of_succ_lt_succ hk)

theorem getD_mem (xs : List α) (k : Nat) (dx : α) (hk : k < xs.length) :
    xs.getD k dx ∈ xs := by
  induction xs generalizing k with
  | nil => exact absurd hk (by simp)
  | cons x tail ih =>
    match k with
    | 0 => exact List.mem_cons_self _ _
    | m + 1 =>
      simp only [List.getD_cons_succ]
      exact List.mem_cons_of_mem _ (ih m (Nat.lt_of_succ_lt_succ hk))

theorem allCongr (xs : List α) (f g : α → Bool) (hfg : ∀ x ∈ xs, f x = g x) :
    xs.all f = xs.all g := by
  induction xs with
  | nil => rfl
  | cons x tail ih =>
    have hx := hfg x (List.mem_cons_self _ _)
    have htail := ih fun y hy => hfg y (List.mem_cons_of_mem _ hy)
    simp only [List.all_cons, hx, htail]

theorem filterCongr (xs : List α) (f g : α → Bool) (hfg : ∀ x ∈ xs, f x = g x) :
    xs.filter f = xs.filter g := by
  induction xs with
  | nil => rfl
  | cons x tail ih =>
    have hx := hfg x (List.mem_cons_self _ _)
    have htail := ih fun y hy => hfg y (List.mem_cons_of_mem _ hy)
    simp only [List.filter_cons, hx, htail]

/-- On dictionary keys, the matcher's intersection test agrees with the
spec's symbol-set intersection rule (after the source's `U` to `T` step). -/
theorem matchKeys_spec : ∀ u ∈ iupacKeys, ∀ v ∈ iupacKeys,
    matches_iupac (if u = 'U' then 'T' else u) (if v = 'U' then 'T' else v) =
      (specSymbolSetU u).any (fun x => (specSymbolSetU v).contains x) := by
  decide

/-- On dictionary keys, the matcher's intersection test equals the bitmask
test used by `iupac_count`. -/
theorem matchKeys_mask : ∀ u ∈ iupacKeys, ∀ v ∈ iupacKeys,
    matches_iupac u v = ((maskLookup u).getD 0 &&& (maskLookup v).getD 0 != 0) := by
  decide

theorem normUch_mem_keys : ∀ u ∈ iupacKeys, (if u = 'U' then 'T' else u) ∈ iupacKeys := by
  decide

theorem matchChar_spec (c d : Char) (hc : isIupacChar c = true)
    (hd : isIupacChar d = true) :
    matches_iupac (normUch c) (normUch d) = specIntersects c d := by
  have hu := isIupacChar_mem_keys c hc
  have hv := isIupacChar_mem_keys d hd
  unfold normUch specIntersects specSymbolSet
  exact matchKeys_spec _ hu _ hv

theorem mem_keys_of_isSome (c : Char) (h : (maskLookup c).isSome = true) :
    c ∈ iupacKeys := by
  obtain ⟨m, hm⟩ := Option.isSome_iff_exists.mp h
  exact mem_of_maskLookup _ _ _ hm

theorem masksOf_ok_of_valid (l : List Char)
    (h : ∀ c ∈ l, (maskLookup c).isSome = true) :
    masksOf l = .ok (l.map fun c => (maskLookup c).getD 0) := by
  induction l with
  | nil => rfl
  | cons c rest ih =>
    obtain ⟨m, hm⟩ := Option.isSome_iff_exists.mp (h c (List.mem_cons_self _ _))
    simp only [masksOf, hm, List.map_cons]
    rw [ih fun b hb => h b (List.mem_cons_of_mem _ hb)]
    rfl

theorem masksOf_ok_inv (l : List Char) (ms : List Nat) (h : masksOf l = .ok ms) :
    (∀ c ∈ l, (maskLookup c).isSome = true) ∧
      ms = l.map fun c => (maskLookup c).getD 0 := by
  induction l generalizing ms with
  | nil =>
    simp only [masksOf] at h
    cases h
    simp
  | cons c rest ih =>
    rw [masksOf] at h
    cases hl : maskLookup c with
    | none => rw [hl] at h; cases h
    | some m =>
      rw [hl] at h
      cases hr : masksOf rest with
      | error e => rw [hr] at h; cases h
      | ok ms' =>
        rw [hr] at h
        cases h
        obtain ⟨hv, hms⟩ := ih ms' hr
        refine ⟨?_, ?_⟩
        · intro b hb
          rcases List.mem_cons.mp hb with hb | hb
          · subst hb; simp [hl]
          · exact hv b hb
        · simp [List.map_cons, hl, hms]

theorem masksOf_err_of_invalid (l : List Char)
    (h : ∃ c ∈ l, maskLookup c = none) :
    ∃ e, masksOf l = .error e ∧ maskLookup e = none := by
  induction l with
  | nil => simp at h
  | cons c rest ih =>
    cases hl : maskLookup c with
    | none => exact ⟨c, by simp [masksOf, hl], hl⟩
    | some m =>
      obtain ⟨b, hb, hbn⟩ := h
      rcases List.mem_cons.mp hb with hb | hb
      · subst hb; rw [hl] at hbn; cases hbn
      · obtain ⟨e, he, hen⟩ := ih ⟨b, hb, hbn⟩
        exact ⟨e, by simp [masksOf, hl, he], hen⟩

theorem fp_eq_empty_of_short (seq mot : List Char)
    (h : seq.length < mot.length) : iupac_find_positions seq mot = [] := by
  simp only [iupac_find_positions, normU, List.length_map]
  rw [if_pos h]

theorem fp_pairwise (seq mot : List Char) :
    (iupac_find_positions seq mot).Pairwise (· < ·) := by
  simp only [iupac_find_positions]
  split
  · exact List.Pairwise.nil
  · exact (List.pairwise_lt_range _).sublist (List.filter_sublist _)

theorem invalid_normUch (c : Char) (h : isIupacChar c = false) :
    maskLookup (normUch c) = none := by
  unfold isIupacChar at h
  have hn : maskLookup c.toUpper = none := by
    cases hl : maskLookup c.toUpper with
    | none => rfl
    | some m => rw [hl] at h; cases h
  unfold normUch
  by_cases hu : c.toUpper = 'U'
  · rw [hu] at hn; cases hn
  · rw [if_neg hu]; exact hn

theorem keys_isSome : ∀ u ∈ iupacKeys, (maskLookup u).isSome = true := by
  decide

theorem valid_normUch (c : Char) (h : isIupacChar c = true) :
    (maskLookup (normUch c)).isSome = true := by
  have hu := isIupacChar_mem_keys c h
  unfold normUch
  exact keys_isSome _ (normUch_mem_keys _ hu)

/-! ### Claims about the matcher -/

/-- Claim C1: on inputs over the IUPAC alphabet, `find_positions` returns
exactly the ascending 0-based list of candidate offsets `i` in
`[0, len(sequence) - len(motif)]` at which every aligned pair of IUPAC
symbol-sets intersects (overlapping scan). -/
theorem find_positions_meets_spec (seq mot : List Char)
    (hs : ∀ c ∈ seq, isIupacChar c = true)
    (hm : ∀ c ∈ mot, isIupacChar c = true) :
    iupac_find_positions seq mot = specPositions seq mot ∧
      (iupac_find_positions seq mot).Pairwise (· < ·) := by
  refine ⟨?_, fp_pairwise seq mot⟩
  simp only [iupac_find_positions, specPositions, normU, List.length_map]
  by_cases hlen : seq.length < mot.length
  · rw [if_pos hlen, if_pos hlen]
  · rw [if_neg hlen, if_neg hlen]
    refine filterCongr _ _ _ fun i hi => ?_
    refine allCongr _ _ _ fun j hj => ?_
    have hi' := List.mem_range.mp hi
    have hj' := List.mem_range.mp hj
    have hij : i + j < seq.length := by omega
    rw [getD_map seq normUch (i + j) ' ' 'X' hij,
      getD_map mot normUch j ' ' 'X' hj']
    exact matchChar_spec _ _ (hs _ (getD_mem seq (i + j) ' ' hij))
      (hm _ (getD_mem mot j ' ' hj'))

/-- Claim C1 witness: the spec's own overlap example, sequence AAAA and
motif AAA, where the matcher yields offsets 0 and 1. -/
theorem find_positions_meets_spec_holds :
    iupac_find_positions "AAAA".toList "AAA".toList = [0, 1] := by
  have h := (find_positions_meets_spec "AAAA".toList "AAA".toList
    (by decide) (by decide)).1
  rw [h]
  decide

theorem masksOf_err_inv (l : List Char) (e : Char) (h : masksOf l = .error e) :
    maskLookup e = none ∧ e ∈ l := by
  induction l with
  | nil => simp only [masksOf] at h; cases h
  | cons c rest ih =>
    rw [masksOf] at h
    cases hl : maskLookup c with
    | none =>
      rw [hl] at h
      cases h
      exact ⟨hl, List.mem_cons_self _ _⟩
    | some m =>
      rw [hl] at h
      cases hr : masksOf rest with
      | error e' =>
        rw [hr] at h
        cases h
        obtain ⟨h1, h2⟩ := ih hr
        exact ⟨h1, List.mem_cons_of_mem _ h2⟩
      | ok ms => rw [hr] at h; cases h

theorem not_iupac_lookup_none (c : Char) (h : isIupacChar c = false) :
    maskLookup c.toUpper = none := by
  unfold isIupacChar at h
  cases hl : maskLookup c.toUpper with
  | none => rfl
  | some m => rw [hl] at h; cases h

/-- Claim C2 counterexample: on sequence A and the empty motif, `count`
returns 0 while `find_positions` returns two positions. -/
theorem count_positions_disagree_on_empty_motif :
    iupac_count ['A'] [] = .ok 0 ∧ iupac_find_positions ['A'] [] = [0, 1] :=
  ⟨rfl, by decide⟩

/-- Claim C2 amended: whenever the motif is non-empty and `count` returns a
value (rather than raising on an unknown symbol), that value equals the
length of `find_positions` on the same inputs. -/
theorem count_agrees_with_positions (seq mot : List Char) (k : Nat)
    (hm : mot ≠ []) (h : iupac_count seq mot = .ok k) :
    k = (iupac_find_positions seq mot).length := by
  by_cases hs : seq = []
  · subst hs
    rw [iupac_count, if_pos (Or.inl rfl)] at h
    cases h
    rw [fp_eq_empty_of_short [] mot (by simpa [List.length_pos] using hm)]
    rfl
  · simp only [iupac_count] at h
    rw [if_neg (by simp [hs, hm])] at h
    split at h
    · cases h
    · rename_i sm hsm
      split at h
      · cases h
      · rename_i mm hmm
        obtain ⟨hvs, hsmeq⟩ := masksOf_ok_inv _ _ hsm
        obtain ⟨hvm, hmmeq⟩ := masksOf_ok_inv _ _ hmm
        have hsl : sm.length = seq.length := by rw [hsmeq]; simp [normU]
        have hml : mm.length = mot.length := by rw [hmmeq]; simp [normU]
        split at h
        · rename_i hnm
          cases h
          rw [fp_eq_empty_of_short seq mot (by omega)]
          rfl
        · rename_i hnm
          cases h
          rw [List.countP_eq_length_filter]
          simp only [iupac_find_positions, normU, List.length_map]
          rw [if_neg (by omega), hsl, hml]
          refine congrArg List.length (filterCongr _ _ _ fun i hi => ?_)
          refine allCongr _ _ _ fun j hj => ?_
          have hi' := List.mem_range.mp hi
          have hj' := List.mem_range.mp hj
          have hij : i + j < seq.length := by omega
          have hijn : i + j < (normU seq).length := by simp [normU]; omega
          have hjn : j < (normU mot).length := by simp [normU]; omega
          rw [hsmeq, hmmeq]
          rw [getD_map (normU seq) _ (i + j) 'X' 0 hijn,
            getD_map (normU mot) _ j 'X' 0 hjn]
          have hu : (normU seq).getD (i + j) 'X' ∈ iupacKeys :=
            mem_keys_of_isSome _ (hvs _ (getD_mem _ _ _ hijn))
          have hv : (normU mot).getD j 'X' ∈ iupacKeys :=
            mem_keys_of_isSome _ (hvm _ (getD_mem _ _ _ hjn))
          exact (matchKeys_mask _ hu _ hv).symm

/-- Claim C2 witness: on the AAAA/AAA pair the counted value 2 matches the
two listed positions. -/
theorem count_agrees_with_positions_holds :
    (2 : Nat) = (iupac_find_positions "AAAA".toList "AAA".toList).length :=
  count_agrees_with_positions "AAAA".toList "AAA".toList 2 (by decide) rfl

/-- Claim C3 counterexample: X is outside the IUPAC alphabet, yet
`find_positions` does not fail on sequence AXA with motif N: it silently
treats the X position as a non-match and returns the other two offsets. -/
theorem find_positions_accepts_unknown_symbol :
    isIupacChar 'X' = false ∧
      iupac_find_positions ['A', 'X', 'A'] ['N'] = [0, 2] := by
  decide

/-- Claim C3 amended: `count` fails with an error carrying an offending
non-IUPAC symbol whenever both inputs are non-empty and either contains a
character outside the alphabet; `find_positions` never fails — a
comparison involving a non-IUPAC character is treated as a non-match. -/
theorem count_rejects_unknown_symbol :
    (∀ seq mot : List Char, seq ≠ [] → mot ≠ [] →
        (∃ c, (c ∈ seq ∨ c ∈ mot) ∧ isIupacChar c = false) →
        ∃ c, iupac_count seq mot = .error (.unknownSymbol c) ∧ maskLookup c = none)
    ∧ (∀ c d : Char, isIupacChar c = false → matches_iupac c d = false)
    ∧ (∀ c d : Char, isIupacChar d = false → matches_iupac c d = false) := by
  refine ⟨?_, ?_, ?_⟩
  · rintro seq mot hs hm ⟨c0, hc0mem, hc0⟩
    cases hsm : masksOf (normU seq) with
    | error e =>
      refine ⟨e, ?_, (masksOf_err_inv _ _ hsm).1⟩
      simp only [iupac_count]
      rw [if_neg (by simp [hs, hm]), hsm]
    | ok sm =>
      have hvs := (masksOf_ok_inv _ _ hsm).1
      have hc0mot : c0 ∈ mot := by
        rcases hc0mem with h1 | h1
        · exfalso
          have hsome : (maskLookup (normUch c0)).isSome = true :=
            hvs _ (List.mem_map_of_mem _ h1)
          rw [invalid_normUch c0 hc0] at hsome
          cases hsome
        · exact h1
      obtain ⟨e, he, hen⟩ := masksOf_err_of_invalid (normU mot)
        ⟨normUch c0, List.mem_map_of_mem _ hc0mot, invalid_normUch c0 hc0⟩
      refine ⟨e, ?_, hen⟩
      simp only [iupac_count]
      rw [if_neg (by simp [hs, hm]), hsm, he]
  · intro c d h
    unfold matches_iupac
    rw [not_iupac_lookup_none c h]
  · intro c d h
    unfold matches_iupac
    rw [not_iupac_lookup_none d h]
    cases maskLookup c.toUpper <;> rfl

/-- Claim C3 witness: sequence X with motif A makes `count` fail with an
error carrying a symbol that has no IUPAC mask. -/
theorem count_rejects_unknown_symbol_holds :
    ∃ c, iupac_count ['X'] ['A'] = .error (.unknownSymbol c) ∧ maskLookup c = none :=
  count_rejects_unknown_symbol.1 ['X'] ['A'] (by decide) (by decide)
    ⟨'X', Or.inl (by decide), by decide⟩

/-- Claim C4 counterexample: on sequence A and the empty motif,
`find_positions` returns two positions, not the empty list. -/
theorem find_positions_empty_motif_not_empty :
    iupac_find_positions ['A'] [] = [0, 1] := by
  decide

/-- Claim C4 amended: `find_positions` returns the empty list whenever the
motif is longer than the sequence — in particular whenever the sequence
is empty and the motif is not — but on an empty motif it instead returns
every offset from 0 to the sequence length; the two concrete examples of
the claim hold. -/
theorem find_positions_empty_cases :
    (∀ seq mot : List Char, seq.length < mot.length →
        iupac_find_positions seq mot = [])
    ∧ (∀ mot : List Char, mot ≠ [] → iupac_find_positions [] mot = [])
    ∧ (∀ seq : List Char, iupac_find_positions seq [] = List.range (seq.length + 1))
    ∧ iupac_find_positions "".toList "AT".toList = []
    ∧ iupac_find_positions "AT".toList "ATG".toList = [] := by
  refine ⟨fp_eq_empty_of_short, ?_, ?_, by decide, by decide⟩
  · intro mot hm
    exact fp_eq_empty_of_short [] mot (by simpa [List.length_pos] using hm)
  · intro seq
    simp only [iupac_find_positions, normU, List.length_map, List.map_nil,
      List.length_nil]
    rw [if_neg (by omega)]
    simp

/-- Claim C4 witness: a motif strictly longer than the sequence yields no
positions. -/
theorem find_positions_empty_cases_holds :
    iupac_find_positions ['G'] ['A', 'T'] = [] :=
  find_positions_empty_cases.1 ['G'] ['A', 'T'] (by decide)

theorem mapExcept_ok_length (f : α → Except ε β) (l : List α) (bs : List β)
    (h : mapExcept f l = .ok bs) : bs.length = l.length := by
  induction l generalizing bs with
  | nil => simp only [mapExcept] at h; cases h; rfl
  | cons a rest ih =>
    rw [mapExcept] at h
    split at h
    · cases h
    · rename_i b hfa
      split at h
      · cases h
      · rename_i bs' hr
        cases h
        simp [ih bs' hr]

theorem mapExcept_ok_getD (f : α → Except ε β) (l : List α) (bs : List β)
    (h : mapExcept f l = .ok bs) (i : Nat) (da : α) (db : β)
    (hi : i < l.length) : f (l.getD i da) = .ok (bs.getD i db) := by
  induction l generalizing bs i with
  | nil => simp at hi
  | cons a rest ih =>
    rw [mapExcept] at h
    split at h
    · cases h
    · rename_i b hfa
      split at h
      · cases h
      · rename_i bs' hr
        cases h
        cases i with
        | zero => simpa using hfa
        | succ k =>
          simp only [List.getD_cons_succ]
          exact ih bs' hr k (by simpa using hi)

theorem mapExcept_ok_mem (f : α → Except ε β) (l : List α) (bs : List β)
    (h : mapExcept f l = .ok bs) (b : β) (hb : b ∈ bs) :
    ∃ a ∈ l, f a = .ok b := by
  induction l generalizing bs with
  | nil => simp only [mapExcept] at h; cases h; simp at hb
  | cons a rest ih =>
    rw [mapExcept] at h
    split at h
    · cases h
    · rename_i b' hfa
      split at h
      · cases h
      · rename_i bs' hr
        cases h
        rcases List.mem_cons.mp hb with hb | hb
        · subst hb
          exact ⟨a, List.mem_cons_self _ _, hfa⟩
        · obtain ⟨x, hx, hxb⟩ := ih bs' hr hb
          exact ⟨x, List.mem_cons_of_mem _ hx, hxb⟩

theorem mapExcept_ok_of_all (f : α → Except ε β) (l : List α)
    (h : ∀ a ∈ l, ∃ b, f a = .ok b) : ∃ bs, mapExcept f l = .ok bs := by
  induction l with
  | nil => exact ⟨[], rfl⟩
  | cons a rest ih =>
    obtain ⟨b, hb⟩ := h a (List.mem_cons_self _ _)
    obtain ⟨bs, hbs⟩ := ih fun x hx => h x (List.mem_cons_of_mem _ hx)
    refine ⟨b :: bs, ?_⟩
    rw [mapExcept, hb, hbs]

/-- Claim C5: `compute_analysis` rejects an empty sequence collection or
motif list with the matching descriptive error; otherwise (whenever every
matcher call returns a value) it yields a result whose raw matrix has one
row per sequence in collection order and one column per motif in list
order, with `raw[i][j]` the matcher count of motif j in sequence i and
`seq_lengths[i]` the length of sequence i. -/
theorem compute_analysis_spec :
    (∀ mots path, compute_analysis iupac_count [] mots path = .error .noSequences)
    ∧ (∀ seqs path, seqs ≠ [] →
        compute_analysis iupac_count seqs [] path = .error .noMotifs)
    ∧ (∀ seqs mots path, seqs ≠ [] → mots ≠ [] →
        (∀ p ∈ seqs, ∀ mot ∈ mots, ∃ k, iupac_count p.2 mot = .ok k) →
        ∃ r, compute_analysis iupac_count seqs mots path = .ok r ∧
          r.seq_ids = seqs.map Prod.fst ∧
          r.motifs = mots ∧
          r.seq_lengths = seqs.map (fun p => p.2.length) ∧
          r.raw_counts.length = seqs.length ∧
          (∀ row ∈ r.raw_counts, row.length = mots.length) ∧
          (∀ i j, i < seqs.length → j < mots.length →
            iupac_count (seqs.getD i ([], [])).2 (mots.getD j []) =
              .ok ((r.raw_counts.getD i []).getD j 0))) := by
  refine ⟨fun mots path => rfl, ?_, ?_⟩
  · intro seqs path hs
    rw [compute_analysis, if_neg hs, if_pos rfl]
  · intro seqs mots path hs hm hok
    obtain ⟨raw, hraw⟩ := mapExcept_ok_of_all
      (fun p => mapExcept (fun mot => iupac_count p.2 mot) mots) seqs
      fun p hp => mapExcept_ok_of_all _ _ fun mot hmot => hok p hp mot hmot
    refine ⟨{ seq_ids := seqs.map Prod.fst, motifs := mots, raw_counts := raw,
              seq_lengths := seqs.map fun p => p.2.length, fasta_path := path },
      ?_, rfl, rfl, rfl, mapExcept_ok_length _ _ _ hraw, ?_, ?_⟩
    · rw [compute_analysis, if_neg hs, if_neg hm, hraw]
    · intro row hrow
      obtain ⟨p, hp, hrowok⟩ := mapExcept_ok_mem _ _ _ hraw row hrow
      exact mapExcept_ok_length _ _ _ hrowok
    · intro i j hi hj
      have h1 := mapExcept_ok_getD _ _ _ hraw i ([], []) [] hi
      exact mapExcept_ok_getD _ _ _ h1 j [] 0 hj

/-- Claim C5 witness: the spec's end-to-end scenario, one sequence
ATGCGTATG and one motif ATG, runs to a result recording length 9. -/
theorem compute_analysis_spec_holds :
    ∃ r, compute_analysis iupac_count [("s1".toList, "ATGCGTATG".toList)]
        ["ATG".toList] none = .ok r ∧ r.seq_lengths = [9] := by
  obtain ⟨r, h1, _, _, h4, _⟩ := compute_analysis_spec.2.2
    [("s1".toList, "ATGCGTATG".toList)] ["ATG".toList] none
    (by decide) (by decide)
    (by
      intro p hp mot hmot
      rw [List.mem_singleton] at hp hmot
      subst hp; subst hmot
      exact ⟨2, rfl⟩)
  exact ⟨r, h1, by rw [h4]; rfl⟩

theorem getD_zip (a : List α) (b : List β) (i : Nat) (da : α) (db : β)
    (ha : i < a.length) (hb : i < b.length) :
    (a.zip b).getD i (da, db) = (a.getD i da, b.getD i db) := by
  induction a generalizing b i with
  | nil => simp at ha
  | cons x xs ih =>
    cases b with
    | nil => simp at hb
    | cons y ys =>
      cases i with
      | zero => rfl
      | succ k =>
        simp only [List.zip_cons_cons, List.getD_cons_succ]
        exact ih ys k (by simpa using ha) (by simpa using hb)

theorem matrix_norm_cell (r : AnalysisResult) (i j : Nat)
    (hi : i < r.raw_counts.length) (hi' : i < r.seq_lengths.length)
    (hj : j < (r.raw_counts.getD i []).length) :
    ∃ m, r.matrix ['n', 'o', 'r', 'm'] = .ok m ∧
      (m.getD i []).getD j 0 =
        ((r.raw_counts.getD i []).getD j 0 : ℚ) /
          ((max (r.seq_lengths.getD i 0) 1 : Nat) : ℚ) * 1000 := by
  refine ⟨_, rfl, ?_⟩
  have hzlen : i < (r.raw_counts.zip r.seq_lengths).length := by
    rw [List.length_zip]; omega
  rw [getD_map _ _ i (([] : List Nat), 0) [] hzlen,
    getD_zip _ _ i [] 0 hi hi', getD_map _ _ j 0 0 hj]
  have hden : (if 0 < r.seq_lengths.getD i 0
      then ((r.seq_lengths.getD i 0 : Nat) : ℚ) else 1) =
      ((max (r.seq_lengths.getD i 0) 1 : Nat) : ℚ) := by
    by_cases hl : 0 < r.seq_lengths.getD i 0
    · rw [if_pos hl]
      congr 1
      omega
    · rw [if_neg hl]
      have h0 : r.seq_lengths.getD i 0 = 0 := by omega
      rw [h0]
      simp
  rw [hden]

/-- Claim C6: the `norm` view is exactly `(raw / max(length, 1)) * 1000`
cellwise (with floats modeled as exact rationals); `matrix` is a pure
transform of the raw counts and the stored lengths; and a zero-length
sequence produced by `compute_analysis` has raw count 0 and normalized
value 0 for every motif, with no division error. -/
theorem matrix_norm_formula :
    (∀ (r₁ r₂ : AnalysisResult) (mode : List Char),
        r₁.raw_counts = r₂.raw_counts → r₁.seq_lengths = r₂.seq_lengths →
        r₁.matrix mode = r₂.matrix mode)
    ∧ (∀ (r : AnalysisResult) (i j : Nat), i < r.raw_counts.length →
        i < r.seq_lengths.length → j < (r.raw_counts.getD i []).length →
        ∃ m, r.matrix ['n', 'o', 'r', 'm'] = .ok m ∧
          (m.getD i []).getD j 0 = ((r.raw_counts.getD i []).getD j 0 : ℚ) /
            ((max (r.seq_lengths.getD i 0) 1 : Nat) : ℚ) * 1000)
    ∧ (∀ seqs mots path r i j,
        compute_analysis iupac_count seqs mots path = .ok r →
        i < seqs.length → j < mots.length → (seqs.getD i ([], [])).2 = [] →
        (r.raw_counts.getD i []).getD j 0 = 0 ∧
        ∃ m, r.matrix ['n', 'o', 'r', 'm'] = .ok m ∧ (m.getD i []).getD j 0 = 0) := by
  refine ⟨?_, matrix_norm_cell, ?_⟩
  · intro r₁ r₂ mode h1 h2
    simp only [AnalysisResult.matrix, h1, h2]
  · intro seqs mots path r i j h hi hj hempty
    have hs : seqs ≠ [] := by
      intro he; rw [he] at hi; simp at hi
    have hm : mots ≠ [] := by
      intro he; rw [he] at hj; simp at hj
    rw [compute_analysis, if_neg hs, if_neg hm] at h
    split at h
    · cases h
    · rename_i raw hraw
      cases h
      have h1 := mapExcept_ok_getD _ _ _ hraw i ([], []) [] hi
      have h2 := mapExcept_ok_getD _ _ _ h1 j [] 0 hj
      rw [hempty] at h2
      have h0 : iupac_count [] (mots.getD j []) = .ok 0 := by
        rw [iupac_count, if_pos (Or.inl rfl)]
      rw [h0] at h2
      have hcell : (raw.getD i []).getD j 0 = 0 := (Except.ok.inj h2).symm
      refine ⟨hcell, ?_⟩
      have hrawlen : raw.length = seqs.length := mapExcept_ok_length _ _ _ hraw
      have hrowlen : (raw.getD i []).length = mots.length := by
        obtain ⟨p, hp, hrowok⟩ := mapExcept_ok_mem _ _ _ hraw (raw.getD i [])
          (getD_mem _ _ _ (by omega))
        exact mapExcept_ok_length _ _ _ hrowok
      obtain ⟨m, hmat, hval⟩ := matrix_norm_cell
        { seq_ids := seqs.map Prod.fst, motifs := mots, raw_counts := raw,
          seq_lengths := seqs.map fun p => p.2.length, fasta_path := path }
        i j (by show i < raw.length; omega)
        (by show i < (seqs.map fun p => p.2.length).length; rw [List.length_map]; omega)
        (by show j < (raw.getD i []).length; rw [hrowlen]; exact hj)
      refine ⟨m, hmat, ?_⟩
      rw [hval]
      simp only [hcell]
      simp

/-- Claim C6 witness: raw count 3 over length 1500 normalizes to exactly 2
per 1000 nucleotides (the spec's worked example). -/
theorem matrix_norm_formula_holds :
    ∃ m, (AnalysisResult.matrix
        { seq_ids := [['s']], motifs := [['A', 'A']], raw_counts := [[3]],
          seq_lengths := [1500], fasta_path := none } ['n', 'o', 'r', 'm']) = .ok m ∧
      (m.getD 0 []).getD 0 0 = 2 := by
  obtain ⟨m, hm, hc⟩ := matrix_norm_formula.2.1
    { seq_ids := [['s']], motifs := [['A', 'A']], raw_counts := [[3]],
      seq_lengths := [1500], fasta_path := none }
    0 0 (by decide) (by decide) (by decide)
  refine ⟨m, hm, ?_⟩
  rw [hc]
  show ((3 : ℕ) : ℚ) / ((max 1500 1 : ℕ) : ℚ) * 1000 = 2
  norm_num

/-- Result used as the concrete input of the matrix-mode claims. -/
def resultA : AnalysisResult :=
  { seq_ids := [['s']], motifs := [['A', 'T']], raw_counts := [[2]],
    seq_lengths := [9], fasta_path := none }

/-- Claim C7 counterexample: the empty mode string is neither raw nor norm,
yet `matrix` does not fail on it — it silently falls back to the raw view. -/
theorem matrix_silently_defaults_on_empty_mode :
    AnalysisResult.matrix resultA [] = AnalysisResult.matrix resultA ['r', 'a', 'w'] ∧
      (AnalysisResult.matrix resultA []).isOk = true ∧
      ([] : List Char) ≠ ['r', 'a', 'w'] ∧ ([] : List Char) ≠ ['n', 'o', 'r', 'm'] :=
  ⟨rfl, rfl, by decide, by decide⟩

/-- Claim C7 amended: `matrix` fails with an error carrying the rejected
mode and the two valid options exactly for modes that are non-empty and
whose lowercasing is neither raw nor norm; the empty mode silently falls
back to raw, and mode comparison is case-insensitive. -/
theorem matrix_rejects_unknown_mode :
    (∀ (r : AnalysisResult) (mode : List Char), mode ≠ [] →
        pyLower mode ≠ ['r', 'a', 'w'] → pyLower mode ≠ ['n', 'o', 'r', 'm'] →
        r.matrix mode =
          .error (.unknownMode (pyLower mode) [['r', 'a', 'w'], ['n', 'o', 'r', 'm']]))
    ∧ (∀ r : AnalysisResult, r.matrix [] = r.matrix ['r', 'a', 'w']) := by
  constructor
  · intro r mode h0 h1 h2
    simp only [AnalysisResult.matrix]
    rw [if_neg h0, if_neg h1, if_neg h2]
  · intro r
    rfl

/-- Claim C7 witness: a concrete unknown mode is rejected with an error
carrying that mode and the two valid options. -/
theorem matrix_rejects_unknown_mode_holds :
    AnalysisResult.matrix resultA ['b', 'a', 'd'] =
      .error (.unknownMode (pyLower ['b', 'a', 'd'])
        [['r', 'a', 'w'], ['n', 'o', 'r', 'm']]) :=
  matrix_rejects_unknown_mode.1 resultA ['b', 'a', 'd']
    (by decide) (by decide) (by decide)

theorem cleanSeqLine_eq_filterMap (l : List Char) :
    cleanSeqLine l = l.filterMap charNorm := by
  induction l with
  | nil => rfl
  | cons c rest ih =>
    simp only [cleanSeqLine, List.map_cons, List.filter_cons] at ih ⊢
    rw [List.filterMap_cons]
    by_cases h3 : ((if c.toUpper = 'U' then 'T' else c.toUpper) != '-' &&
        (if c.toUpper = 'U' then 'T' else c.toUpper) != '.') = true
    · rw [if_pos h3]
      simp only [List.map_cons, List.filter_cons]
      by_cases h5 : ((if (if c.toUpper = 'U' then 'T' else c.toUpper) = '?'
          then 'N' else (if c.toUpper = 'U' then 'T' else c.toUpper)) != ' ' &&
          (if (if c.toUpper = 'U' then 'T' else c.toUpper) = '?'
          then 'N' else (if c.toUpper = 'U' then 'T' else c.toUpper)) != '\t') = true
      · rw [if_pos h5]
        simp only [List.filter_cons]
        by_cases h6 : (!(if (if c.toUpper = 'U' then 'T' else c.toUpper) = '?'
            then 'N' else (if c.toUpper = 'U' then 'T' else c.toUpper)).isDigit) = true
        · rw [if_pos h6, ih]
          have hcn : charNorm c = some (if (if c.toUpper = 'U' then 'T' else c.toUpper) = '?'
              then 'N' else (if c.toUpper = 'U' then 'T' else c.toUpper)) := by
            unfold charNorm
            rw [if_neg (by simpa using h3), if_neg (by simpa using h5),
              if_neg (by simpa using h6)]
          rw [hcn]
        · rw [if_neg h6, ih]
          have hcn : charNorm c = none := by
            unfold charNorm
            rw [if_neg (by simpa using h3), if_neg (by simpa using h5),
              if_pos (by simpa using h6)]
          rw [hcn]
      · rw [if_neg h5, ih]
        have hcn : charNorm c = none := by
          unfold charNorm
          rw [if_neg (by simpa using h3),
            if_pos (or_iff_not_imp_left.mpr (by simpa using h5))]
        rw [hcn]
    · rw [if_neg h3, ih]
      have hcn : charNorm c = none := by
        unfold charNorm
        rw [if_pos (or_iff_not_imp_left.mpr (by simpa using h3))]
      rw [hcn]

theorem mem_insertSorted (a c : Char) (l : List Char) :
    a ∈ insertSorted c l ↔ a = c ∨ a ∈ l := by
  induction l with
  | nil => simp [insertSorted]
  | cons d ds ih =>
    simp only [insertSorted]
    split
    · simp [List.mem_cons]
    · simp only [List.mem_cons, ih]
      tauto

theorem mem_sortChars (a : Char) (l : List Char) : a ∈ sortChars l ↔ a ∈ l := by
  induction l with
  | nil => simp [sortChars]
  | cons c cs ih =>
    rw [show sortChars (c :: cs) = insertSorted c (sortChars cs) from rfl,
      mem_insertSorted, ih]
    simp

theorem mem_dedupChars (a : Char) (l : List Char) : a ∈ dedupChars l ↔ a ∈ l := by
  induction l with
  | nil => simp [dedupChars]
  | cons c cs ih =>
    simp only [dedupChars]
    split
    · rename_i hmem
      rw [ih]
      simp only [List.mem_cons]
      constructor
      · exact Or.inr
      · rintro (rfl | h)
        · exact hmem
        · exact h
    · simp only [List.mem_cons, ih]

theorem mem_badCharsOf (c : Char) (l : List Char) :
    c ∈ badCharsOf l ↔ c ∈ l ∧ allowedChars.contains c = false := by
  unfold badCharsOf
  rw [mem_sortChars, mem_dedupChars, List.mem_filter]
  simp

theorem badCharsOf_eq_nil (l : List Char) :
    badCharsOf l = [] ↔ ∀ c ∈ l, allowedChars.contains c = true := by
  constructor
  · intro h c hc
    by_contra hno
    have hcb : c ∈ badCharsOf l :=
      (mem_badCharsOf c l).mpr ⟨hc, by simpa using hno⟩
    rw [h] at hcb
    simp at hcb
  · intro h
    by_contra hne
    obtain ⟨c, hc⟩ := List.exists_mem_of_ne_nil _ hne
    obtain ⟨h1, h2⟩ := (mem_badCharsOf c l).mp hc
    rw [h c h1] at h2
    cases h2

theorem appendTo_keys (acc : List (List Char × List Char)) (id s : List Char) :
    (appendTo acc id s).map Prod.fst = acc.map Prod.fst := by
  induction acc with
  | nil => rfl
  | cons p ps ih =>
    simp only [appendTo, List.map_cons] at ih ⊢
    split <;> simp [ih]

theorem appendTo_chars (acc : List (List Char × List Char)) (id s : List Char)
    (p : List Char × List Char) (hp : p ∈ appendTo acc id s) (c : Char)
    (hc : c ∈ p.2) : (∃ q ∈ acc, c ∈ q.2) ∨ c ∈ s := by
  unfold appendTo at hp
  obtain ⟨q, hq, hqe⟩ := List.mem_map.mp hp
  by_cases h : q.1 = id
  · rw [if_pos h] at hqe
    rw [← hqe] at hc
    rcases List.mem_append.mp hc with hc | hc
    · exact Or.inl ⟨q, hq, hc⟩
    · exact Or.inr hc
  · rw [if_neg h] at hqe
    rw [← hqe] at hc
    exact Or.inl ⟨q, hq, hc⟩

theorem not_mem_keys_of_not_any (acc : List (List Char × List Char))
    (id : List Char) (h : (acc.any fun p => p.1 == id) = false) :
    id ∉ acc.map Prod.fst := by
  intro hmem
  obtain ⟨p, hp, hpe⟩ := List.mem_map.mp hmem
  have hany : acc.any (fun p => p.1 == id) = true :=
    List.any_eq_true.mpr ⟨p, hp, by simp [hpe]⟩
  rw [h] at hany
  cases hany

theorem load_chars_allowed (lines : List (List Char)) :
    ∀ n cur acc r,
      (∀ p ∈ acc, ∀ c ∈ p.2, allowedChars.contains c = true) →
      load_fasta_lines n cur acc lines = .ok r →
      ∀ p ∈ r, ∀ c ∈ p.2, allowedChars.contains c = true := by
  induction lines with
  | nil =>
    intro n cur acc r hacc h
    simp only [load_fasta_lines] at h
    split at h
    · cases h
    · cases h
      exact hacc
  | cons line rest ih =>
    intro n cur acc r hacc h
    simp only [load_fasta_lines] at h
    by_cases h1 : pyStrip line = []
    · rw [if_pos h1] at h
      exact ih _ _ _ _ hacc h
    · rw [if_neg h1] at h
      by_cases h2 : isHeaderLine (pyStrip line) = true
      · rw [if_pos h2] at h
        by_cases h3 : pyStrip ((pyStrip line).drop 1) = []
        · rw [if_pos h3] at h
          cases h
        · rw [if_neg h3] at h
          by_cases h4 : (acc.any fun p => p.1 == pyStrip ((pyStrip line).drop 1)) = true
          · rw [if_pos h4] at h
            cases h
          · rw [if_neg h4] at h
            refine ih _ _ _ _ ?_ h
            intro p hp c hc
            rcases List.mem_append.mp hp with hp | hp
            · exact hacc p hp c hc
            · rw [List.mem_singleton] at hp
              subst hp
              simp at hc
      · rw [if_neg h2] at h
        split at h
        · cases h
        · rename_i id
          by_cases h5 : badCharsOf (cleanSeqLine (pyStrip line)) = []
          · rw [if_pos h5] at h
            refine ih _ _ _ _ ?_ h
            intro p hp c hc
            rcases appendTo_chars _ _ _ p hp c hc with ⟨q, hq, hcq⟩ | hcs
            · exact hacc q hq c hcq
            · exact (badCharsOf_eq_nil _).mp h5 c hcs
          · rw [if_neg h5] at h
            cases h

theorem load_ids_ok (lines : List (List Char)) :
    ∀ n cur acc r,
      (acc.map Prod.fst).Nodup →
      (∀ id ∈ acc.map Prod.fst, id ≠ ([] : List Char)) →
      load_fasta_lines n cur acc lines = .ok r →
      (r.map Prod.fst).Nodup ∧ (∀ id ∈ r.map Prod.fst, id ≠ []) ∧ r ≠ [] := by
  induction lines with
  | nil =>
    intro n cur acc r hnd hne h
    simp only [load_fasta_lines] at h
    split at h
    · cases h
    · rename_i hacc
      cases h
      exact ⟨hnd, hne, hacc⟩
  | cons line rest ih =>
    intro n cur acc r hnd hne h
    simp only [load_fasta_lines] at h
    by_cases h1 : pyStrip line = []
    · rw [if_pos h1] at h
      exact ih _ _ _ _ hnd hne h
    · rw [if_neg h1] at h
      by_cases h2 : isHeaderLine (pyStrip line) = true
      · rw [if_pos h2] at h
        by_cases h3 : pyStrip ((pyStrip line).drop 1) = []
        · rw [if_pos h3] at h
          cases h
        · rw [if_neg h3] at h
          by_cases h4 : (acc.any fun p => p.1 == pyStrip ((pyStrip line).drop 1)) = true
          · rw [if_pos h4] at h
            cases h
          · rw [if_neg h4] at h
            refine ih _ _ _ _ ?_ ?_ h
            · rw [List.map_append]
              rw [List.nodup_append]
              refine ⟨hnd, by simp, ?_⟩
              intro a ha hb
              simp only [List.map_cons, List.map_nil, List.mem_singleton] at hb
              subst hb
              exact not_mem_keys_of_not_any acc _ (Bool.of_not_eq_true h4) ha
            · intro id hid
              rw [List.map_append] at hid
              rcases List.mem_append.mp hid with hid | hid
              · exact hne id hid
              · simp only [List.map_cons, List.map_nil, List.mem_singleton] at hid
                subst hid
                exact h3
      · rw [if_neg h2] at h
        split at h
        · cases h
        · rename_i id
          by_cases h5 : badCharsOf (cleanSeqLine (pyStrip line)) = []
          · rw [if_pos h5] at h
            refine ih _ _ _ _ ?_ ?_ h
            · rw [appendTo_keys]
              exact hnd
            · rw [appendTo_keys]
              exact hne
          · rw [if_neg h5] at h
            cases h

theorem load_noSeq_iff (lines : List (List Char)) :
    ∀ n cur acc,
      (∀ id, cur = some id → id ∈ acc.map Prod.fst) →
      (load_fasta_lines n cur acc lines = .error .noSequences ↔
        (acc = [] ∧ ∀ l ∈ lines, pyStrip l = [])) := by
  induction lines with
  | nil =>
    intro n cur acc hcur
    simp only [load_fasta_lines]
    split
    · rename_i h
      simp [h]
    · rename_i h
      simp [h]
  | cons line rest ih =>
    intro n cur acc hcur
    simp only [load_fasta_lines]
    by_cases h1 : pyStrip line = []
    · rw [if_pos h1, ih _ _ _ hcur]
      simp [List.forall_mem_cons, h1]
    · rw [if_neg h1]
      by_cases h2 : isHeaderLine (pyStrip line) = true
      · rw [if_pos h2]
        by_cases h3 : pyStrip ((pyStrip line).drop 1) = []
        · rw [if_pos h3]
          simp [List.forall_mem_cons, h1]
        · rw [if_neg h3]
          by_cases h4 : (acc.any fun p => p.1 == pyStrip ((pyStrip line).drop 1)) = true
          · rw [if_pos h4]
            simp [List.forall_mem_cons, h1]
          · rw [if_neg h4]
            rw [ih _ _ _ (by
              intro id' hid'
              injection hid' with hh
              subst hh
              simp [List.map_append])]
            simp [List.forall_mem_cons, h1]
      · rw [if_neg h2]
        cases cur with
        | none => simp [List.forall_mem_cons, h1]
        | some id =>
          have hacc : acc ≠ [] := by
            intro he
            have hmem := hcur id rfl
            rw [he] at hmem
            simp at hmem
          by_cases h5 : badCharsOf (cleanSeqLine (pyStrip line)) = []
          · show (if badCharsOf (cleanSeqLine (pyStrip line)) = []
              then load_fasta_lines (n + 1) (some id)
                (appendTo acc id (cleanSeqLine (pyStrip line))) rest
              else .error (.invalidChars (badCharsOf (cleanSeqLine (pyStrip line))) n)) =
                .error .noSequences ↔ _
            rw [if_pos h5]
            rw [ih _ _ _ (by
              intro id' hid'
              injection hid' with hh
              subst hh
              rw [appendTo_keys]
              exact hcur _ rfl)]
            have happ : appendTo acc id (cleanSeqLine (pyStrip line)) ≠ [] := by
              intro he
              exact hacc (List.map_eq_nil_iff.mp he)
            simp [List.forall_mem_cons, h1, happ]
          · show (if badCharsOf (cleanSeqLine (pyStrip line)) = []
              then load_fasta_lines (n + 1) (some id)
                (appendTo acc id (cleanSeqLine (pyStrip line))) rest
              else .error (.invalidChars (badCharsOf (cleanSeqLine (pyStrip line))) n)) =
                .error .noSequences ↔ _
            rw [if_neg h5]
            simp [List.forall_mem_cons, h1]

theorem lines_invalid_spec (lines : List (List Char)) :
    ∀ n0 cur acc bad n,
      load_fasta_lines n0 cur acc lines = .error (.invalidChars bad n) →
      ∃ k, k < lines.length ∧ n = n0 + k ∧
        bad = badCharsOf (cleanSeqLine (pyStrip (lines.getD k []))) ∧ bad ≠ [] := by
  induction lines with
  | nil =>
    intro n0 cur acc bad n h
    simp only [load_fasta_lines] at h
    split at h <;> simp at h
  | cons line rest ih =>
    intro n0 cur acc bad n h
    simp only [load_fasta_lines] at h
    by_cases h1 : pyStrip line = []
    · rw [if_pos h1] at h
      obtain ⟨k, hk, hn, hbad, hne⟩ := ih _ _ _ _ _ h
      exact ⟨k + 1, by simpa using hk, by omega, by simpa using hbad, hne⟩
    · rw [if_neg h1] at h
      by_cases h2 : isHeaderLine (pyStrip line) = true
      · rw [if_pos h2] at h
        by_cases h3 : pyStrip ((pyStrip line).drop 1) = []
        · rw [if_pos h3] at h
          simp at h
        · rw [if_neg h3] at h
          by_cases h4 : (acc.any fun p => p.1 == pyStrip ((pyStrip line).drop 1)) = true
          · rw [if_pos h4] at h
            simp at h
          · rw [if_neg h4] at h
            obtain ⟨k, hk, hn, hbad, hne⟩ := ih _ _ _ _ _ h
            exact ⟨k + 1, by simpa using hk, by omega, by simpa using hbad, hne⟩
      · rw [if_neg h2] at h
        split at h
        · simp at h
        · rename_i id
          by_cases h5 : badCharsOf (cleanSeqLine (pyStrip line)) = []
          · rw [if_pos h5] at h
            obtain ⟨k, hk, hn, hbad, hne⟩ := ih _ _ _ _ _ h
            exact ⟨k + 1, by simpa using hk, by omega, by simpa using hbad, hne⟩
          · rw [if_neg h5] at h
            simp only [Except.error.injEq, FastaError.invalidChars.injEq] at h
            obtain ⟨hb, hn⟩ := h
            exact ⟨0, by simp, by omega, by simpa using hb.symm, by rw [hb] at h5; exact h5⟩

/-! ### Claims about the FASTA loader -/

/-- Claim C8: the loader normalizes every non-header line in the specified
order (shown as the per-character pipeline), rejects a line that still
carries a character outside the 15 allowed letters with an error naming
exactly the offending characters and the 1-based line number, accepts
only the 15 letters into stored sequences, and parses the spec's
round-trip example to the expected ordered mapping. -/
theorem load_fasta_normalizes :
    load_fasta ">seq1\nATGC\n>seq2\natgcn\n".toList =
      .ok [("seq1".toList, "ATGC".toList), ("seq2".toList, "ATGCN".toList)]
    ∧ (∀ l : List Char, cleanSeqLine l = l.filterMap charNorm)
    ∧ (∀ text bad n, load_fasta text = .error (.invalidChars bad n) →
        bad ≠ [] ∧ (∀ c ∈ bad, allowedChars.contains c = false) ∧
        1 ≤ n ∧ n ≤ (splitLines text).length ∧
        bad = badCharsOf (cleanSeqLine (pyStrip ((splitLines text).getD (n - 1) []))))
    ∧ (∀ text r, load_fasta text = .ok r →
        ∀ p ∈ r, ∀ c ∈ p.2, allowedChars.contains c = true) := by
  refine ⟨rfl, cleanSeqLine_eq_filterMap, ?_, ?_⟩
  · intro text bad n h
    unfold load_fasta at h
    obtain ⟨k, hk, hn, hbad, hne⟩ := lines_invalid_spec _ _ _ _ _ _ h
    refine ⟨hne, ?_, by omega, by omega, ?_⟩
    · intro c hc
      rw [hbad] at hc
      exact ((mem_badCharsOf c _).mp hc).2
    · have hk1 : n - 1 = k := by omega
      rw [hk1]
      exact hbad
  · intro text r h
    exact load_chars_allowed (splitLines text) 1 none [] r (by simp) h

/-- Claim C8 witness: the input with an exclamation mark in its second
sequence line is rejected at line 2 naming exactly that character. -/
theorem load_fasta_normalizes_holds :
    1 ≤ 2 ∧ 2 ≤ (splitLines ">s\nAB!C".toList).length ∧
      (['!'] : List Char) =
        badCharsOf (cleanSeqLine (pyStrip ((splitLines ">s\nAB!C".toList).getD (2 - 1) []))) :=
  (load_fasta_normalizes.2.2.1 ">s\nAB!C".toList ['!'] 2 rfl).2.2

/-- Claim C9: each structural fault — a duplicate identifier, an empty
header, a sequence line before any header, and an input with no
sequences — fails the whole load with the corresponding error, and every
successful load has pairwise-distinct non-empty identifiers and at least
one sequence (so none of these faults can slip into a result). -/
theorem load_fasta_error_cases :
    load_fasta ">seq1\nATGC\n>seq1\nATGC".toList = .error (.duplicateId "seq1".toList)
    ∧ load_fasta ">\nATGC".toList = .error (.emptyHeader 1)
    ∧ load_fasta "ATGC\n>x\nA".toList = .error .missingHeader
    ∧ load_fasta "".toList = .error .noSequences
    ∧ (∀ text r, load_fasta text = .ok r →
        (r.map Prod.fst).Nodup ∧ (∀ id ∈ r.map Prod.fst, id ≠ []) ∧ r ≠ []) := by
  refine ⟨rfl, rfl, rfl, rfl, ?_⟩
  intro text r h
  exact load_ids_ok (splitLines text) 1 none [] r (by simp) (by simp) h

/-- Claim C9 witness: a successful two-line load yields a collection with
distinct identifiers and at least one record. -/
theorem load_fasta_error_cases_holds :
    ([("a".toList, "AT".toList)].map Prod.fst).Nodup ∧
      ([("a".toList, "AT".toList)] : List (List Char × List Char)) ≠ [] :=
  ⟨(load_fasta_error_cases.2.2.2.2 ">a\nAT".toList [("a".toList, "AT".toList)] rfl).1,
   (load_fasta_error_cases.2.2.2.2 ">a\nAT".toList [("a".toList, "AT".toList)] rfl).2.2⟩

/-- Claim C10 counterexample: the input ATGC contains no header line at
all, yet the loader raises the missing-header error, not the empty-file
error. -/
theorem headerless_input_not_empty_file_error :
    load_fasta "ATGC".toList = .error .missingHeader ∧
      FastaError.missingHeader ≠ FastaError.noSequences ∧
      ((splitLines "ATGC".toList).all fun l => !isHeaderLine (pyStrip l)) = true :=
  ⟨rfl, by decide, by decide⟩

/-- Claim C10 amended: a record that is only a header is accepted and maps
its identifier to the empty sequence (an input of only headers parses to
a mapping of empty strings), and the empty-file error is raised exactly
when the input has no non-blank line at all; a non-blank input without a
header fails with the missing-header error instead. -/
theorem load_fasta_empty_file_iff :
    load_fasta ">seq1\n>seq2".toList =
      .ok [("seq1".toList, []), ("seq2".toList, [])]
    ∧ (∀ text, load_fasta text = .error .noSequences ↔
        ∀ l ∈ splitLines text, pyStrip l = []) := by
  refine ⟨rfl, ?_⟩
  intro text
  unfold load_fasta
  rw [load_noSeq_iff (splitLines text) 1 none [] (by intro id hid; cases hid)]
  simp

/-- Claim C10 witness: an input of blank lines only raises the empty-file
error. -/
theorem load_fasta_empty_file_iff_holds :
    load_fasta ['\n', ' '] = .error .noSequences :=
  (load_fasta_empty_file_iff.2 ['\n', ' ']).mpr (by decide)
